import Mathlib

/-!
Verification development for the gas_giant_core repository.

The Python sources (planet_analyzers.py, planet_generators.py,
observables.py) are embedded shallowly: numpy arrays become `List ℝ`,
machine floats become real numbers, and the assertions of the source
become an `Except` error channel.  One deliberate modelling point: in
`distance_of_J` the source can divide by an exactly zero scaled
uncertainty, which in IEEE arithmetic produces a non-finite value
(NaN or Inf) that the code passes through uncaught.  We model the
value channel of that function as `Option ℝ`, where `none` stands for
a non-finite result coming from a zero denominator and `some r` for
the finite real result `r`.
-/

noncomputable section

/-- Consecutive differences of a list, as numpy's np.diff:
np.diff [x0, x1, x2] = [x1 - x0, x2 - x1]. -/
def npdiff : List ℝ → List ℝ
  | x :: y :: rest => (y - x) :: npdiff (y :: rest)
  | _ => []

/-- mass(svec, dvec) from planet_analyzers.py: total mass implied by a
density profile.  dro = hstack((dvec[0], diff dvec)); the result is
4*pi/3 * sum(dro * svec**3). -/
def mass (svec dvec : List ℝ) : ℝ :=
  let dro := dvec.headI :: npdiff dvec
  4 * Real.pi / 3 * ((dro.zip svec).map (fun p => p.1 * p.2 ^ 3)).sum

/-- mass_variable(svec, dvec) from planet_analyzers.py: cumulative mass.
mvec[N-1] = 4*pi/3*dvec[N-1]*svec[N-1]^3 (the last layer is a sphere) and,
going outward, mvec[k-1] = mvec[k] + 4*pi/3*dvec[k-1]*(svec[k-1]^3 - svec[k]^3).
The source loop fills the list from the innermost entry outward; here the
same recurrence is expressed by structural recursion on the two lists. -/
def mass_variable : List ℝ → List ℝ → List ℝ
  | [s], [d] => [4 * Real.pi / 3 * d * s ^ 3]
  | s :: s2 :: ss, d :: d2 :: ds =>
    (((mass_variable (s2 :: ss) (d2 :: ds)).headI
        + 4 * Real.pi / 3 * d * (s ^ 3 - s2 ^ 3)))
      :: mass_variable (s2 :: ss) (d2 :: ds)
  | _, _ => []

/-- Value and index of the first minimum of a list, as numpy's argmin
(ties are broken toward the smallest index). -/
def argminVal : List ℝ → ℝ × ℕ
  | [] => (0, 0)
  | [x] => (x, 0)
  | x :: y :: ys =>
    let vj := argminVal (y :: ys)
    if x ≤ vj.1 then (x, 0) else (vj.1, vj.2 + 1)

/-- Index of the first minimum of a list, as numpy's np.argmin. -/
def argmin (l : List ℝ) : ℕ := (argminVal l).2

/-- Error taxonomy of the specification.  The source signals
InvalidArgument (assert on the sample count and descriptor length) and
LengthMismatch (asserts in distance_of_J, and numpy broadcast failures,
which are also length mismatches).  DegenerateBreakpoints is named by the
spec for degenerate breakpoint radii; the code contains no such check, a
fact settled below. -/
inductive PlanetErr
  | InvalidArgument
  | DegenerateBreakpoints
  | LengthMismatch
deriving DecidableEq

/-- Elementwise product of two numpy 1-d arrays, including numpy's
size-1 broadcasting rule: arrays of equal length multiply elementwise,
a length-1 array is stretched over the other operand, and any other
combination of lengths is a broadcast error (`none`). -/
def broadcast_mul (a b : List ℝ) : Option (List ℝ) :=
  if a.length = b.length then some ((a.zip b).map (fun p => p.1 * p.2))
  else if a.length = 1 then some (b.map (fun y => a.headI * y))
  else if b.length = 1 then some (a.map (fun x => x * b.headI))
  else none

/-- distance_of_J(model_1, model_2, sigmas) from planet_analyzers.py.
First sigmas = sigmas*model_1 (numpy elementwise multiply, with
broadcasting; an incompatible pair of lengths fails there), then the two
size asserts, then sqrt(sum(((model_1 - model_2)/sigmas)**2)).
A zero scaled uncertainty makes the corresponding IEEE quotient
non-finite (NaN when the numerator is also zero, Inf otherwise), which
propagates through the sum and the square root; that outcome is the
`some`-free value `Except.ok none`. -/
def distance_of_J (model_1 model_2 sigmas : List ℝ) : Except PlanetErr (Option ℝ) :=
  match broadcast_mul sigmas model_1 with
  | none => .error .LengthMismatch
  | some sig =>
    if model_1.length = model_2.length then
      if model_1.length = sig.length then
        let terms := ((model_1.zip model_2).zip sig).map
          (fun p => if p.2 = 0 then (none : Option ℝ)
                    else some (((p.1.1 - p.1.2) / p.2) ^ 2))
        if terms.all Option.isSome then
          .ok (some (Real.sqrt ((terms.map (fun t => t.getD 0)).sum)))
        else .ok none
      else .error .LengthMismatch
    else .error .LengthMismatch

namespace Jupiter

/-- Jupiter's mass in kg, from observables.py. -/
def M : ℝ := 1.8986112e27

/-- Jupiter's mean radius in m, from observables.py. -/
def s0 : ℝ := 6.9911e7

end Jupiter

/-- np.linspace start stop num: num evenly spaced samples from start to
stop inclusive; sample k is start + k*(stop-start)/(num-1).  (For num = 1
the real-division convention x/0 = 0 makes the formula collapse to
[start], matching numpy's single-sample behaviour.) -/
def linspace (start stop : ℝ) (num : ℕ) : List ℝ :=
  (List.range num).map (fun (k : ℕ) => start + (k : ℝ) * ((stop - start) / ((num : ℝ) - 1)))

/-- Body of piecewise_quadratic_planet(N, x) from planet_generators.py,
after its input asserts: interpret x = [a1,y10,y11,a2,y21,y22,a3,y32,y33,z1,z2],
chain the breakpoint densities, solve each segment's remaining quadratic
coefficients, sample N normalized radii from 1 down to 1/N and evaluate the
segment containing each sample. -/
def pqp_profile (N : ℕ) (x : List ℝ) : List ℝ × List ℝ :=
  let a1 := x.getD 0 0; let y10 := x.getD 1 0; let y11 := x.getD 2 0
  let a2 := x.getD 3 0; let y21 := x.getD 4 0; let y22 := x.getD 5 0
  let a3 := x.getD 6 0; let y32 := x.getD 7 0; let y33 := x.getD 8 0
  let z1 := x.getD 9 0; let z2 := x.getD 10 0
  let d10 := y10
  let d11 := d10 + y11
  let d21 := d11 + y21
  let d22 := d21 + y22
  let d32 := d22 + y32
  let d33 := d32 + y33
  let b1 := (d11 - d10) / (z1 - 1) - a1 * (z1 + 1)
  let c1 := d10 - a1 - b1
  let b2 := (d22 - d21) / (z2 - z1) - a2 * (z2 + z1)
  let c2 := d21 - a2 * z1 ^ 2 - b2 * z1
  let b3 := (d32 - d33) / z2 - a3 * z2
  let c3 := d33
  let zvec := linspace 1 (1 / (N : ℝ)) N
  let dvec := zvec.map (fun z =>
    if z1 < z then a1 * z ^ 2 + b1 * z + c1
    else if z2 < z then a2 * z ^ 2 + b2 * z + c2
    else a3 * z ^ 2 + b3 * z + c3)
  (zvec, dvec)

/-- piecewise_quadratic_planet(N, x) with its two input asserts: N must be
a positive count and x an 11-vector, otherwise the call fails.  No other
failure exists in the source: in particular no breakpoint-degeneracy check. -/
def piecewise_quadratic_planet (N : ℕ) (x : List ℝ) :
    Except PlanetErr (List ℝ × List ℝ) :=
  if 0 < N ∧ x.length = 11 then .ok (pqp_profile N x) else .error .InvalidArgument

/-- The hardcoded descriptor of reference_jupiter in planet_generators.py. -/
def x_ref : List ℝ :=
  [-1.0065958e3, 0, 1.0147479e3, -1.3393080e3,
   3.0463783e1, 3.8662506e3, 0, 0, 0, 0.8, 0]

/-- reference_jupiter(N) from planet_generators.py: the fixed descriptor
fed to the piecewise-quadratic builder, radii rescaled by Jupiter's mean
radius.  (The builder's asserts pass for every N ≥ 1 since x_ref has 11
entries; the assert-free body is used directly.) -/
def reference_jupiter (N : ℕ) : List ℝ × List ℝ :=
  let p := pqp_profile N x_ref
  (p.1.map (fun z => z * Jupiter.s0), p.2)

/-- Conversion of a target core mass from earth masses to kg,
as the line Mc = Mc*5.972e24 shared by both core builders. -/
def Mc_kg (Mc : ℝ) : ℝ := Mc * 5.972e24

/-- The core index shared by type_1_jupiter and type_2_jupiter:
indc = argmin(abs(Mc - mass_variable(svec, dvec))) over the reference
profile, with Mc already converted to kg. -/
def core_index (N : ℕ) (Mc : ℝ) : ℕ :=
  let p := reference_jupiter N
  argmin ((mass_variable p.1 p.2).map (fun m => |Mc_kg Mc - m|))

/-- The constant core density of type_1_jupiter:
rhoc = Mc/(4*pi/3*Rc^3) with Rc = svec[indc]. -/
def type_1_rhoc (N : ℕ) (Mc : ℝ) : ℝ :=
  Mc_kg Mc /
    (4 * Real.pi / 3 * ((reference_jupiter N).1.getD (core_index N Mc) 0) ^ 3)

/-- type_1_jupiter(N, Mc) from planet_generators.py: reference profile
with the slice dvec[indc:] overwritten by the constant rhoc whenever
indc < N-1. -/
def type_1_jupiter (N : ℕ) (Mc : ℝ) : List ℝ × List ℝ :=
  let p := reference_jupiter N
  let svec := p.1
  let dvec := p.2
  let indc := core_index N Mc
  if indc < N - 1 then
    (svec, dvec.take indc ++
      List.replicate (dvec.length - indc) (type_1_rhoc N Mc))
  else (svec, dvec)

/-- The original center density rhoc = dvec[-1] of the reference profile,
read by type_2_jupiter before the substitution. -/
def type_2_rhoc (N : ℕ) : ℝ :=
  (reference_jupiter N).2.getD ((reference_jupiter N).2.length - 1) 0

/-- Zc = zvec[indc] in type_2_jupiter, where zvec = svec/svec[0]. -/
def type_2_Zc (N : ℕ) (Mc : ℝ) : ℝ :=
  (((reference_jupiter N).1.map (fun s => s / (reference_jupiter N).1.headI)).getD
    (core_index N Mc) 0)

/-- rhoe = (Mc/svec[0]^3)/(pi*Zc^3) - rhoc/3 in type_2_jupiter. -/
def type_2_rhoe (N : ℕ) (Mc : ℝ) : ℝ :=
  (Mc_kg Mc / (reference_jupiter N).1.headI ^ 3) /
    (Real.pi * type_2_Zc N Mc ^ 3) - type_2_rhoc N / 3

/-- slope = (rhoe - rhoc)/Zc in type_2_jupiter. -/
def type_2_slope (N : ℕ) (Mc : ℝ) : ℝ :=
  (type_2_rhoe N Mc - type_2_rhoc N) / type_2_Zc N Mc

/-- type_2_jupiter(N, Mc) from planet_generators.py: reference profile
with the slice dvec[indc:] replaced by the linear ramp
rhoc + slope*zvec[indc:] whenever indc < N-1. -/
def type_2_jupiter (N : ℕ) (Mc : ℝ) : List ℝ × List ℝ :=
  let p := reference_jupiter N
  let svec := p.1
  let dvec := p.2
  let zvec := svec.map (fun s => s / svec.headI)
  let indc := core_index N Mc
  if indc < N - 1 then
    (svec, dvec.take indc ++
      (zvec.drop indc).map (fun z => type_2_rhoc N + type_2_slope N Mc * z))
  else (svec, dvec)

/-! ### Basic facts about the cumulative-mass recursion -/

theorem mass_variable_single (s d : ℝ) :
    mass_variable [s] [d] = [4 * Real.pi / 3 * d * s ^ 3] := by
  rw [mass_variable]

theorem mass_variable_cons (s s2 d d2 : ℝ) (ss ds : List ℝ) :
    mass_variable (s :: s2 :: ss) (d :: d2 :: ds) =
      ((mass_variable (s2 :: ss) (d2 :: ds)).headI
        + 4 * Real.pi / 3 * d * (s ^ 3 - s2 ^ 3))
        :: mass_variable (s2 :: ss) (d2 :: ds) := by
  rw [mass_variable]

theorem mass_variable_length : ∀ (svec dvec : List ℝ),
    svec.length = dvec.length →
    (mass_variable svec dvec).length = svec.length
  | [], [], _ => rfl
  | [_], [_], _ => by simp [mass_variable_single]
  | s :: s2 :: ss, d :: d2 :: ds, h => by
    have ih := mass_variable_length (s2 :: ss) (d2 :: ds) (by simpa using h)
    simp [mass_variable_cons, ih]
  | [], _ :: _, h => by simp at h
  | _ :: _, [], h => by simp at h
  | [_], _ :: _ :: _, h => by simp at h
  | _ :: _ :: _, [_], h => by simp at h

theorem mass_variable_ne_nil (svec dvec : List ℝ)
    (h : svec.length = dvec.length) (h0 : 0 < svec.length) :
    mass_variable svec dvec ≠ [] := by
  have := mass_variable_length svec dvec h
  intro hnil
  rw [hnil] at this
  simp at this
  omega

theorem headI_eq_getD_zero (l : List ℝ) : l.headI = l.getD 0 0 := by
  cases l with
  | nil => rfl
  | cons a t => simp

theorem head?_eq_some_headI (l : List ℝ) (h : l ≠ []) :
    l.head? = some l.headI := by
  cases l with
  | nil => exact absurd rfl h
  | cons a t => simp

theorem headI_drop (l : List ℝ) (k : ℕ) (h : k < l.length) :
    (l.drop k).headI = l.getD k 0 := by
  induction l generalizing k with
  | nil => simp at h
  | cons a t ih =>
    cases k with
    | zero => simp
    | succ k =>
      simp only [List.drop_succ_cons, List.getD_cons_succ]
      exact ih k (by simpa using h)

theorem mass_variable_drop : ∀ (k : ℕ) (svec dvec : List ℝ),
    svec.length = dvec.length →
    (mass_variable svec dvec).drop k = mass_variable (svec.drop k) (dvec.drop k) := by
  intro k
  induction k with
  | zero => intro svec dvec _; simp
  | succ k ih =>
    intro svec dvec h
    match svec, dvec with
    | [], [] => simp [mass_variable]
    | [s], [d] => simp [mass_variable_single, mass_variable]
    | s :: s2 :: ss, d :: d2 :: ds =>
      rw [mass_variable_cons]
      simp only [List.drop_succ_cons]
      exact ih (s2 :: ss) (d2 :: ds) (by simpa using h)
    | [], _ :: _ => simp at h
    | _ :: _, [] => simp at h

theorem npdiff_cons (d d2 : ℝ) (ds : List ℝ) :
    npdiff (d :: d2 :: ds) = (d2 - d) :: npdiff (d2 :: ds) := by
  rw [npdiff]

/-- Peeling the outermost shell off the outside-in finite-difference sum. -/
theorem mass_cons (s s2 d d2 : ℝ) (ss ds : List ℝ) :
    mass (s :: s2 :: ss) (d :: d2 :: ds) =
      mass (s2 :: ss) (d2 :: ds) + 4 * Real.pi / 3 * d * (s ^ 3 - s2 ^ 3) := by
  simp only [mass, npdiff_cons, List.headI, List.zip_cons_cons, List.map_cons,
    List.sum_cons]
  ring

/-- The inside-out running sum and the outside-in finite-difference sum
agree on the total mass. -/
theorem mass_variable_headI_eq_mass : ∀ (svec dvec : List ℝ),
    svec.length = dvec.length → 0 < svec.length →
    (mass_variable svec dvec).headI = mass svec dvec
  | [], [], _, h0 => by simp at h0
  | [s], [d], _, _ => by
    simp [mass_variable_single, mass, npdiff]
    ring
  | s :: s2 :: ss, d :: d2 :: ds, h, _ => by
    have ih := mass_variable_headI_eq_mass (s2 :: ss) (d2 :: ds)
      (by simpa using h) (by simp)
    rw [mass_variable_cons, mass_cons]
    simp [ih]
  | [], _ :: _, h, _ => by simp at h
  | _ :: _, [], h, _ => by simp at h
  | [_], _ :: _ :: _, h, _ => by simp at h
  | _ :: _ :: _, [_], h, _ => by simp at h

/-- A constant-density stack of shells telescopes to a full sphere of the
outermost radius. -/
theorem mass_variable_replicate : ∀ (s : List ℝ) (ρ : ℝ), s ≠ [] →
    (mass_variable s (List.replicate s.length ρ)).headI
      = 4 * Real.pi / 3 * ρ * s.headI ^ 3
  | [], _, h => absurd rfl h
  | [s], ρ, _ => by simp [List.replicate, mass_variable_single]
  | s :: s2 :: ss, ρ, _ => by
    have ih := mass_variable_replicate (s2 :: ss) ρ (by simp)
    have hrep : List.replicate (s :: s2 :: ss).length ρ
        = ρ :: List.replicate (s2 :: ss).length ρ := by
      simp [List.replicate_succ]
    have hrep2 : List.replicate (s2 :: ss).length ρ
        = ρ :: List.replicate ss.length ρ := by
      simp [List.replicate_succ]
    rw [hrep, hrep2, mass_variable_cons, ← hrep2]
    simp only [List.headI_cons]
    rw [ih]
    simp only [List.headI_cons]
    ring

/-- Two profiles on the same radii that agree outside index i have
cumulative-mass sequences whose entries differ by the same constant from
index i inward to the head. -/
theorem mass_variable_sub_headI : ∀ (i : ℕ) (svec d₁ d₂ : List ℝ),
    svec.length = d₁.length → svec.length = d₂.length → i < svec.length →
    (∀ k < i, d₁.getD k 0 = d₂.getD k 0) →
    (mass_variable svec d₁).headI - (mass_variable svec d₂).headI
      = (mass_variable svec d₁).getD i 0 - (mass_variable svec d₂).getD i 0 := by
  intro i
  induction i with
  | zero =>
    intro svec d₁ d₂ h1 h2 hi _
    rw [← headI_eq_getD_zero, ← headI_eq_getD_zero]
  | succ i ih =>
    intro svec d₁ d₂ h1 h2 hi hagree
    match svec, d₁, d₂ with
    | [], _, _ => simp at hi
    | [s], _, _ => simp at hi
    | s :: s2 :: ss, [], _ => simp at h1
    | s :: s2 :: ss, [_], _ => simp at h1
    | s :: s2 :: ss, a :: a2 :: as_, [] => simp at h2
    | s :: s2 :: ss, a :: a2 :: as_, [_] => simp at h2
    | s :: s2 :: ss, a :: a2 :: as_, b :: b2 :: bs =>
      have hab : a = b := by
        have := hagree 0 (Nat.succ_pos i)
        simpa using this
      have ihx := ih (s2 :: ss) (a2 :: as_) (b2 :: bs)
        (by simpa using h1) (by simpa using h2) (by simpa using hi)
        (fun k hk => by
          have := hagree (k + 1) (by omega)
          simpa using this)
      rw [mass_variable_cons, mass_variable_cons]
      simp only [List.getD_cons_succ, List.headI, hab]
      have : ∀ x y c : ℝ, x + c - (y + c) = x - y := by intro x y c; ring
      rw [this]
      exact ihx

/-- With nonnegative densities on strictly decreasing positive radii the
cumulative-mass sequence is monotone from the head (the total) inward. -/
theorem mass_variable_chain : ∀ (svec dvec : List ℝ),
    svec.length = dvec.length →
    List.Chain' (fun a b => a > b) svec →
    (∀ s ∈ svec, 0 < s) → (∀ d ∈ dvec, 0 ≤ d) →
    List.Chain' (fun a b => b ≤ a) (mass_variable svec dvec) := by
  intro svec
  induction svec with
  | nil => intro dvec h _ _ _; simp [mass_variable]
  | cons s tail ih =>
    intro dvec h hdec hpos hd
    match tail, dvec with
    | [], [d] => simp [mass_variable_single]
    | [], [] => simp at h
    | [], _ :: _ :: _ => simp at h
    | s2 :: ss, [] => simp at h
    | s2 :: ss, [d] => simp at h
    | s2 :: ss, d :: d2 :: ds =>
      have hlen : (s2 :: ss).length = (d2 :: ds).length := by simpa using h
      have hchain := ih (d2 :: ds) hlen (hdec.tail)
        (fun x hx => hpos x (List.mem_cons_of_mem s hx))
        (fun x hx => hd x (List.mem_cons_of_mem d hx))
      rw [mass_variable_cons]
      rw [List.chain'_cons']
      constructor
      · intro y hy
        rw [head?_eq_some_headI _ (mass_variable_ne_nil _ _ hlen (by simp))] at hy
        have hy' : y = (mass_variable (s2 :: ss) (d2 :: ds)).headI :=
          (Option.some_inj.mp hy).symm
        subst hy'
        have hinc : 0 ≤ 4 * Real.pi / 3 * d * (s ^ 3 - s2 ^ 3) := by
          have hds : 0 ≤ d := hd d (by simp)
          have hs2 : 0 < s2 := hpos s2 (by simp)
          have hss2 : s2 < s := by
            have := hdec.rel_head
            simpa using this
          have hcube : s2 ^ 3 ≤ s ^ 3 := by
            apply pow_le_pow_left₀ hs2.le hss2.le
          have hpi : 0 ≤ 4 * Real.pi / 3 := by positivity
          have : 0 ≤ s ^ 3 - s2 ^ 3 := by linarith
          positivity
        linarith
      · exact hchain

/-! ### Facts about the sampling grid -/

theorem linspace_length (a b : ℝ) (n : ℕ) : (linspace a b n).length = n := by
  simp [linspace]

/-- The grid of piecewise_quadratic_planet: sample k of
linspace 1 (1/N) N is 1 - k/N. -/
theorem linspace_getD (N k : ℕ) (hk : k < N) :
    (linspace 1 (1 / (N : ℝ)) N).getD k 0 = 1 - (k : ℝ) / (N : ℝ) := by
  have hlen : k < (linspace 1 (1 / (N : ℝ)) N).length := by
    rw [linspace_length]; exact hk
  rw [List.getD_eq_getElem _ _ hlen]
  simp only [linspace, List.getElem_map, List.getElem_range]
  rcases Nat.lt_or_ge N 2 with hN | hN
  · interval_cases N
    · omega
    · interval_cases k
      norm_num
  · have hN0 : (N : ℝ) ≠ 0 := by
      have : (2 : ℝ) ≤ (N : ℝ) := by exact_mod_cast hN
      linarith
    have hN1 : (N : ℝ) - 1 ≠ 0 := by
      have : (2 : ℝ) ≤ (N : ℝ) := by exact_mod_cast hN
      linarith
    field_simp
    ring

theorem linspace_chain (N : ℕ) :
    List.Chain' (fun a b => a > b) (linspace 1 (1 / (N : ℝ)) N) := by
  match N with
  | 0 => simp [linspace]
  | 1 => simp [linspace]
  | (n + 2) =>
    unfold linspace
    rw [List.chain'_map]
    rw [show n + 2 = (n + 1) + 1 by omega, List.chain'_range_succ]
    intro m hm
    have hstep : ((1 / ((n + 2 : ℕ) : ℝ) - 1) / (((n + 2 : ℕ) : ℝ) - 1)) < 0 := by
      have h2 : (2 : ℝ) ≤ ((n + 2 : ℕ) : ℝ) := by
        push_cast
        linarith
      apply div_neg_of_neg_of_pos
      · have : 1 / ((n + 2 : ℕ) : ℝ) ≤ 1 / 2 := by
          apply one_div_le_one_div_of_le <;> linarith
        linarith
      · linarith
    have hmm : (m : ℝ) < ((m + 1 : ℕ) : ℝ) := by
      push_cast
      linarith
    nlinarith [hstep, hmm]

theorem pqp_profile_fst (N : ℕ) (x : List ℝ) :
    (pqp_profile N x).1 = linspace 1 (1 / (N : ℝ)) N := rfl

theorem pqp_profile_snd_length (N : ℕ) (x : List ℝ) :
    (pqp_profile N x).2.length = N := by
  simp [pqp_profile, linspace]

/-! ### Facts about the reference profile -/

theorem reference_jupiter_fst_length (N : ℕ) :
    (reference_jupiter N).1.length = N := by
  simp [reference_jupiter, pqp_profile_fst, linspace_length]

theorem reference_jupiter_snd_length (N : ℕ) :
    (reference_jupiter N).2.length = N := by
  simp [reference_jupiter, pqp_profile_snd_length]

theorem reference_jupiter_svec_getD (N k : ℕ) (hk : k < N) :
    (reference_jupiter N).1.getD k 0 = (1 - (k : ℝ) / (N : ℝ)) * Jupiter.s0 := by
  have hk1 : k < (pqp_profile N x_ref).1.length := by
    simpa [pqp_profile_fst, linspace_length] using hk
  have hlen : k < ((pqp_profile N x_ref).1.map (fun z => z * Jupiter.s0)).length := by
    simpa using hk1
  show ((pqp_profile N x_ref).1.map (fun z => z * Jupiter.s0)).getD k 0
      = (1 - (k : ℝ) / (N : ℝ)) * Jupiter.s0
  rw [List.getD_eq_getElem _ _ hlen, List.getElem_map,
    ← List.getD_eq_getElem _ 0 hk1, pqp_profile_fst, linspace_getD N k hk]

theorem reference_jupiter_svec_pos (N k : ℕ) (hk : k < N) :
    0 < (reference_jupiter N).1.getD k 0 := by
  rw [reference_jupiter_svec_getD N k hk]
  have hN : 0 < (N : ℝ) := by
    have : 0 < N := by omega
    exact_mod_cast this
  have hkN : (k : ℝ) / (N : ℝ) < 1 := by
    rw [div_lt_one hN]
    exact_mod_cast hk
  have hs0 : 0 < Jupiter.s0 := by norm_num [Jupiter.s0]
  nlinarith

theorem reference_jupiter_svec_headI (N : ℕ) (hN : 0 < N) :
    (reference_jupiter N).1.headI = Jupiter.s0 := by
  rw [headI_eq_getD_zero, reference_jupiter_svec_getD N 0 hN]
  norm_num

/-! ### Claim C1 -/

/-- C1: for every profile with strictly decreasing radii and positive
length, the first entry of the cumulative-mass sequence of mass_variable
equals the scalar returned by mass: the outside-in finite-difference
shell sum and the inside-out running shell sum give the same total mass,
exactly, over real arithmetic. -/
theorem cumulative_head_eq_total (svec dvec : List ℝ)
    (hlen : svec.length = dvec.length) (hN : 0 < svec.length)
    (hdec : List.Chain' (fun a b => a > b) svec) :
    (mass_variable svec dvec).headI = mass svec dvec :=
  mass_variable_headI_eq_mass svec dvec hlen hN

theorem cumulative_head_eq_total_witness :
    ([(2 : ℝ), 1].length = [(3 : ℝ), 5].length ∧ 0 < [(2 : ℝ), 1].length ∧
      List.Chain' (fun a b => a > b) [(2 : ℝ), 1]) ∧
    (mass_variable [(2 : ℝ), 1] [(3 : ℝ), 5]).headI = mass [(2 : ℝ), 1] [(3 : ℝ), 5] :=
  ⟨⟨by simp, by simp, by norm_num⟩,
    cumulative_head_eq_total [2, 1] [3, 5] (by simp) (by simp) (by norm_num)⟩

/-! ### Claim C8 -/

theorem chain'_getD_le (l : List ℝ) (h : List.Chain' (fun a b => b ≤ a) l)
    (j : ℕ) (hj : j + 1 < l.length) : l.getD (j + 1) 0 ≤ l.getD j 0 := by
  have hrel := List.chain'_iff_get.mp h j (by omega)
  rw [List.getD_eq_getElem l 0 (by omega : j + 1 < l.length),
    List.getD_eq_getElem l 0 (by omega : j < l.length)]
  simpa using hrel

/-- C8: on strictly decreasing positive radii with nonnegative densities
the cumulative-mass sequence of mass_variable is monotone non-increasing
in index, that is, enclosed mass does not decrease from the center
outward: mvec[k-1] is at least mvec[k] for every k in 1..N-1. -/
theorem cumulative_mass_monotone (svec dvec : List ℝ)
    (hlen : svec.length = dvec.length)
    (hdec : List.Chain' (fun a b => a > b) svec)
    (hpos : ∀ s ∈ svec, 0 < s) (hd : ∀ d ∈ dvec, 0 ≤ d) :
    ∀ k, 0 < k → k < svec.length →
      (mass_variable svec dvec).getD k 0 ≤ (mass_variable svec dvec).getD (k - 1) 0 := by
  intro k hk hklen
  have hchain := mass_variable_chain svec dvec hlen hdec hpos hd
  have hmlen := mass_variable_length svec dvec hlen
  obtain ⟨j, rfl⟩ : ∃ j, k = j + 1 := ⟨k - 1, by omega⟩
  have := chain'_getD_le _ hchain j (by omega)
  simpa using this

theorem cumulative_mass_monotone_witness :
    ([(2 : ℝ), 1].length = [(3 : ℝ), 5].length ∧
      List.Chain' (fun a b => a > b) [(2 : ℝ), 1] ∧
      (∀ s ∈ [(2 : ℝ), 1], 0 < s) ∧ (∀ d ∈ [(3 : ℝ), 5], 0 ≤ d) ∧
      0 < 1 ∧ 1 < [(2 : ℝ), 1].length) ∧
    (mass_variable [(2 : ℝ), 1] [(3 : ℝ), 5]).getD 1 0
      ≤ (mass_variable [(2 : ℝ), 1] [(3 : ℝ), 5]).getD (1 - 1) 0 :=
  ⟨⟨by simp, by norm_num, by norm_num, by norm_num, by norm_num, by simp⟩,
    cumulative_mass_monotone [2, 1] [3, 5] (by simp) (by norm_num) (by norm_num)
      (by norm_num) 1 (by norm_num) (by simp)⟩

/-! ### Claim C7 -/

/-- C7: for every positive N and valid non-degenerate 11-element
descriptor, piecewise_quadratic_planet succeeds and its radii array has
exactly N entries, strictly decreasing, starting at exactly 1 and ending
at exactly 1/N. -/
theorem pqp_radii_spec (N : ℕ) (x : List ℝ) (hN : 0 < N) (hx : x.length = 11)
    (hnd : x.getD 9 0 ≠ x.getD 10 0 ∧ x.getD 9 0 ≠ 1 ∧ x.getD 10 0 ≠ 0) :
    piecewise_quadratic_planet N x = .ok (pqp_profile N x) ∧
    (pqp_profile N x).1.length = N ∧
    (pqp_profile N x).1.headI = 1 ∧
    (pqp_profile N x).1.getD (N - 1) 0 = 1 / (N : ℝ) ∧
    List.Chain' (fun a b => a > b) (pqp_profile N x).1 := by
  refine ⟨?_, ?_, ?_, ?_, ?_⟩
  · unfold piecewise_quadratic_planet
    rw [if_pos ⟨hN, hx⟩]
  · rw [pqp_profile_fst, linspace_length]
  · rw [pqp_profile_fst, headI_eq_getD_zero, linspace_getD N 0 hN]
    norm_num
  · rw [pqp_profile_fst, linspace_getD N (N - 1) (by omega)]
    have hcast : ((N - 1 : ℕ) : ℝ) = (N : ℝ) - 1 := by
      rw [Nat.cast_sub hN]
      norm_num
    have hN0 : (N : ℝ) ≠ 0 := by
      have : (0 : ℝ) < (N : ℝ) := by exact_mod_cast hN
      linarith
    rw [hcast]
    field_simp
  · rw [pqp_profile_fst]
    exact linspace_chain N

theorem pqp_radii_spec_witness :
    (0 < 3 ∧ ([(0 : ℝ), 0, 0, 0, 0, 0, 0, 0, 0, 1 / 2, 1 / 4] : List ℝ).length = 11 ∧
      ([(0 : ℝ), 0, 0, 0, 0, 0, 0, 0, 0, 1 / 2, 1 / 4].getD 9 0
          ≠ [(0 : ℝ), 0, 0, 0, 0, 0, 0, 0, 0, 1 / 2, 1 / 4].getD 10 0 ∧
        [(0 : ℝ), 0, 0, 0, 0, 0, 0, 0, 0, 1 / 2, 1 / 4].getD 9 0 ≠ 1 ∧
        [(0 : ℝ), 0, 0, 0, 0, 0, 0, 0, 0, 1 / 2, 1 / 4].getD 10 0 ≠ 0)) ∧
    (piecewise_quadratic_planet 3 [(0 : ℝ), 0, 0, 0, 0, 0, 0, 0, 0, 1 / 2, 1 / 4]
        = .ok (pqp_profile 3 [(0 : ℝ), 0, 0, 0, 0, 0, 0, 0, 0, 1 / 2, 1 / 4]) ∧
      (pqp_profile 3 [(0 : ℝ), 0, 0, 0, 0, 0, 0, 0, 0, 1 / 2, 1 / 4]).1.length = 3 ∧
      (pqp_profile 3 [(0 : ℝ), 0, 0, 0, 0, 0, 0, 0, 0, 1 / 2, 1 / 4]).1.headI = 1 ∧
      (pqp_profile 3 [(0 : ℝ), 0, 0, 0, 0, 0, 0, 0, 0, 1 / 2, 1 / 4]).1.getD (3 - 1) 0
        = 1 / ((3 : ℕ) : ℝ) ∧
      List.Chain' (fun a b => a > b)
        (pqp_profile 3 [(0 : ℝ), 0, 0, 0, 0, 0, 0, 0, 0, 1 / 2, 1 / 4]).1) :=
  ⟨⟨by norm_num, by simp, by norm_num, by norm_num, by norm_num⟩,
    pqp_radii_spec 3 [0, 0, 0, 0, 0, 0, 0, 0, 0, 1 / 2, 1 / 4] (by norm_num) (by simp)
      ⟨by norm_num, by norm_num, by norm_num⟩⟩

/-! ### Claim C2 -/

/-- C2 counterexample: on a degenerate descriptor with z1 = z2 the builder
does not fail with DegenerateBreakpoints; it returns a profile. -/
theorem pqp_degenerate_no_failure :
    piecewise_quadratic_planet 2 [(0 : ℝ), 0, 0, 0, 0, 0, 0, 0, 0, 1 / 2, 1 / 2]
      ≠ Except.error PlanetErr.DegenerateBreakpoints := by
  unfold piecewise_quadratic_planet
  rw [if_pos ⟨by norm_num, by simp⟩]
  simp

/-- C2 amended: piecewise_quadratic_planet contains no degeneracy check at
all.  For every positive N and 11-element descriptor with z1 = z2, z1 = 1
or z2 = 0 it returns a profile normally instead of failing; the zero
denominators only make the affected segment's coefficients non-finite in
IEEE arithmetic, which is even relied upon by reference_jupiter, whose
descriptor has z2 = 0 and whose samples never fall in the affected core
segment. -/
theorem pqp_degenerate_returns_profile (N : ℕ) (x : List ℝ)
    (hN : 0 < N) (hx : x.length = 11)
    (hdeg : x.getD 9 0 = x.getD 10 0 ∨ x.getD 9 0 = 1 ∨ x.getD 10 0 = 0) :
    piecewise_quadratic_planet N x = .ok (pqp_profile N x) := by
  unfold piecewise_quadratic_planet
  rw [if_pos ⟨hN, hx⟩]

theorem pqp_degenerate_returns_profile_witness :
    (0 < 2 ∧ ([(0 : ℝ), 0, 0, 0, 0, 0, 0, 0, 0, 1, 0] : List ℝ).length = 11 ∧
      ([(0 : ℝ), 0, 0, 0, 0, 0, 0, 0, 0, 1, 0].getD 9 0
          = [(0 : ℝ), 0, 0, 0, 0, 0, 0, 0, 0, 1, 0].getD 10 0 ∨
        [(0 : ℝ), 0, 0, 0, 0, 0, 0, 0, 0, 1, 0].getD 9 0 = 1 ∨
        [(0 : ℝ), 0, 0, 0, 0, 0, 0, 0, 0, 1, 0].getD 10 0 = 0)) ∧
    piecewise_quadratic_planet 2 [(0 : ℝ), 0, 0, 0, 0, 0, 0, 0, 0, 1, 0]
      = .ok (pqp_profile 2 [(0 : ℝ), 0, 0, 0, 0, 0, 0, 0, 0, 1, 0]) :=
  ⟨⟨by norm_num, by simp, Or.inr (Or.inl (by norm_num))⟩,
    pqp_degenerate_returns_profile 2 [0, 0, 0, 0, 0, 0, 0, 0, 0, 1, 0] (by norm_num)
      (by simp) (Or.inr (Or.inl (by norm_num)))⟩

/-! ### Reduction lemmas for distance_of_J -/

theorem broadcast_mul_eq_len (a b : List ℝ) (h : a.length = b.length) :
    broadcast_mul a b = some ((a.zip b).map (fun p => p.1 * p.2)) := by
  unfold broadcast_mul
  rw [if_pos h]

theorem broadcast_mul_one_left (a b : List ℝ) (hne : a.length ≠ b.length)
    (h1 : a.length = 1) :
    broadcast_mul a b = some (b.map (fun y => a.headI * y)) := by
  unfold broadcast_mul
  rw [if_neg hne, if_pos h1]

theorem broadcast_mul_one_right (a b : List ℝ) (hne : a.length ≠ b.length)
    (h1 : a.length ≠ 1) (hb : b.length = 1) :
    broadcast_mul a b = some (a.map (fun x => x * b.headI)) := by
  unfold broadcast_mul
  rw [if_neg hne, if_neg h1, if_pos hb]

theorem broadcast_mul_incompatible (a b : List ℝ) (hne : a.length ≠ b.length)
    (h1 : a.length ≠ 1) (hb : b.length ≠ 1) : broadcast_mul a b = none := by
  unfold broadcast_mul
  rw [if_neg hne, if_neg h1, if_neg hb]

theorem distance_of_J_bcast (m1 m2 s sig : List ℝ)
    (hb : broadcast_mul s m1 = some sig) :
    distance_of_J m1 m2 s =
      (if m1.length = m2.length then
        if m1.length = sig.length then
          let terms := ((m1.zip m2).zip sig).map
            (fun p => if p.2 = 0 then (none : Option ℝ)
                      else some (((p.1.1 - p.1.2) / p.2) ^ 2))
          if terms.all Option.isSome then
            Except.ok (some (Real.sqrt ((terms.map (fun t => t.getD 0)).sum)))
          else Except.ok none
        else Except.error PlanetErr.LengthMismatch
      else Except.error PlanetErr.LengthMismatch) := by
  unfold distance_of_J
  rw [hb]

theorem distance_of_J_bcast_fail (m1 m2 s : List ℝ)
    (hb : broadcast_mul s m1 = none) :
    distance_of_J m1 m2 s = Except.error PlanetErr.LengthMismatch := by
  unfold distance_of_J
  rw [hb]

/-! ### Claim C5 -/

theorem distance_terms_self : ∀ (a s : List ℝ),
    s.length = a.length → (∀ x ∈ a, x ≠ 0) → (∀ x ∈ s, x ≠ 0) →
    ((a.zip a).zip ((s.zip a).map (fun p => p.1 * p.2))).map
        (fun p => if p.2 = 0 then (none : Option ℝ)
                  else some (((p.1.1 - p.1.2) / p.2) ^ 2))
      = List.replicate a.length (some (0 : ℝ))
  | [], _, _, _, _ => by simp
  | x :: xs, [], hlen, _, _ => by simp at hlen
  | x :: xs, t :: ts, hlen, ha, hs => by
    have hx : x ≠ 0 := ha x (by simp)
    have ht : t ≠ 0 := hs t (by simp)
    have ih := distance_terms_self xs ts (by simpa using hlen)
      (fun y hy => ha y (List.mem_cons_of_mem x hy))
      (fun y hy => hs y (List.mem_cons_of_mem t hy))
    simp only [List.zip_cons_cons, List.map_cons, List.length_cons,
      List.replicate_succ]
    rw [if_neg (mul_ne_zero ht hx)]
    rw [ih]
    norm_num

/-- C5 counterexample: the self-distance of the model [0] with the nonzero
uncertainty [1] is not 0: the scaled uncertainty 1*0 vanishes and the
quotient 0/0 is non-finite (NaN in the source), so no zero distance is
returned. -/
theorem distance_of_J_self_not_zero :
    distance_of_J [(0 : ℝ)] [(0 : ℝ)] [(1 : ℝ)] = Except.ok none ∧
    distance_of_J [(0 : ℝ)] [(0 : ℝ)] [(1 : ℝ)] ≠ Except.ok (some (0 : ℝ)) := by
  have hb : broadcast_mul [(1 : ℝ)] [(0 : ℝ)]
      = some (([(1 : ℝ)].zip [(0 : ℝ)]).map (fun p => p.1 * p.2)) :=
    broadcast_mul_eq_len _ _ (by simp)
  constructor
  · rw [distance_of_J_bcast _ _ _ _ hb]
    norm_num
  · rw [distance_of_J_bcast _ _ _ _ hb]
    norm_num
    simp

/-- C5 amended: the self-distance is exactly 0 for every model whose
coefficients are all nonzero (with same-length nonzero uncertainties);
when some coefficient of the model is zero the scaled uncertainty is zero
and the result is the non-finite passthrough value, not 0. -/
theorem distance_of_J_self_zero (a s : List ℝ) (hlen : s.length = a.length)
    (ha : ∀ x ∈ a, x ≠ 0) (hs : ∀ x ∈ s, x ≠ 0) :
    distance_of_J a a s = Except.ok (some (0 : ℝ)) := by
  have hb : broadcast_mul s a = some ((s.zip a).map (fun p => p.1 * p.2)) :=
    broadcast_mul_eq_len s a hlen
  rw [distance_of_J_bcast _ _ _ _ hb]
  rw [if_pos rfl, if_pos (by simp [hlen])]
  rw [distance_terms_self a s hlen ha hs]
  have hall : (List.replicate a.length (some (0 : ℝ))).all Option.isSome = true := by
    simp [List.all_eq_true]
  rw [if_pos hall]
  simp [List.map_replicate, List.sum_replicate]

theorem distance_of_J_self_zero_witness :
    (([(1 : ℝ), 2].length = [(3 : ℝ), 4].length) ∧
      (∀ x ∈ [(3 : ℝ), 4], x ≠ 0) ∧ (∀ x ∈ [(1 : ℝ), 2], x ≠ 0)) ∧
    distance_of_J [(3 : ℝ), 4] [(3 : ℝ), 4] [(1 : ℝ), 2] = Except.ok (some (0 : ℝ)) :=
  ⟨⟨by simp, by norm_num, by norm_num⟩,
    distance_of_J_self_zero [3, 4] [1, 2] (by simp) (by norm_num) (by norm_num)⟩

/-! ### Claim C6 -/

/-- C6 counterexample: a length-1 uncertainty tuple against two length-2
models is not rejected; numpy broadcasting stretches the single
uncertainty over the models and a distance is returned. -/
theorem distance_of_J_broadcast_accepts :
    distance_of_J [(1 : ℝ), 1] [(2 : ℝ), 2] [(1 : ℝ)]
      = Except.ok (some (Real.sqrt 2)) := by
  have hb : broadcast_mul [(1 : ℝ)] [(1 : ℝ), 1]
      = some ([(1 : ℝ), 1].map (fun y => ([(1 : ℝ)]).headI * y)) :=
    broadcast_mul_one_left _ _ (by simp) (by simp)
  rw [distance_of_J_bcast _ _ _ _ hb]
  norm_num

/-- C6 amended: distance_of_J fails with LengthMismatch exactly when the
two models differ in length, or the uncertainty is neither of the models'
common length nor a single value; a single uncertainty against equal-length
models is broadcast by numpy and accepted, so the lengths need not all be
equal for a distance to be returned. -/
theorem distance_of_J_length_check (m1 m2 s : List ℝ) :
    distance_of_J m1 m2 s = Except.error PlanetErr.LengthMismatch ↔
      (m1.length ≠ m2.length ∨ (s.length ≠ m1.length ∧ s.length ≠ 1)) := by
  by_cases h1 : s.length = m1.length
  · rw [distance_of_J_bcast _ _ _ _ (broadcast_mul_eq_len s m1 h1)]
    by_cases h2 : m1.length = m2.length
    · rw [if_pos h2, if_pos (by simp [h1])]
      constructor
      · intro hcontra
        dsimp only at hcontra
        split at hcontra <;> exact Except.noConfusion hcontra
      · rintro (hbad | ⟨hbad, _⟩)
        · exact absurd h2 hbad
        · exact absurd h1 hbad
    · rw [if_neg h2]
      exact iff_of_true rfl (Or.inl h2)
  · by_cases hs1 : s.length = 1
    · rw [distance_of_J_bcast _ _ _ _ (broadcast_mul_one_left s m1 h1 hs1)]
      by_cases h2 : m1.length = m2.length
      · rw [if_pos h2, if_pos (by simp)]
        constructor
        · intro hcontra
          dsimp only at hcontra
          split at hcontra <;> exact Except.noConfusion hcontra
        · rintro (hbad | ⟨_, hbad⟩)
          · exact absurd h2 hbad
          · exact absurd hs1 hbad
      · rw [if_neg h2]
        exact iff_of_true rfl (Or.inl h2)
    · by_cases hm1 : m1.length = 1
      · rw [distance_of_J_bcast _ _ _ _ (broadcast_mul_one_right s m1 h1 hs1 hm1)]
        by_cases h2 : m1.length = m2.length
        · rw [if_pos h2, if_neg (by
            simp only [List.length_map]
            intro hh
            exact h1 (by omega))]
          exact iff_of_true rfl (Or.inr ⟨h1, hs1⟩)
        · rw [if_neg h2]
          exact iff_of_true rfl (Or.inl h2)
      · rw [distance_of_J_bcast_fail _ _ _ (broadcast_mul_incompatible s m1 h1 hs1 hm1)]
        exact iff_of_true rfl (Or.inr ⟨h1, hs1⟩)

/-! ### Claim C10 -/

/-- C10: distance_of_J is not symmetric in its two model arguments, since
the uncertainties are scaled by the first model's coefficients: with
models [1] and [2] and uncertainty [1] the two orders give distance 1 and
distance 1/2. -/
theorem distance_of_J_asymmetric :
    distance_of_J [(1 : ℝ)] [(2 : ℝ)] [(1 : ℝ)]
      ≠ distance_of_J [(2 : ℝ)] [(1 : ℝ)] [(1 : ℝ)] := by
  have hb1 : broadcast_mul [(1 : ℝ)] [(1 : ℝ)]
      = some (([(1 : ℝ)].zip [(1 : ℝ)]).map (fun p => p.1 * p.2)) :=
    broadcast_mul_eq_len _ _ (by simp)
  have hb2 : broadcast_mul [(1 : ℝ)] [(2 : ℝ)]
      = some (([(1 : ℝ)].zip [(2 : ℝ)]).map (fun p => p.1 * p.2)) :=
    broadcast_mul_eq_len _ _ (by simp)
  rw [distance_of_J_bcast _ _ _ _ hb1, distance_of_J_bcast _ _ _ _ hb2]
  have hq1 : Real.sqrt ((((1 : ℝ) - 2) / (1 * 1)) ^ 2 + 0) = 1 := by
    rw [show ((((1 : ℝ) - 2) / (1 * 1)) ^ 2 + 0) = 1 by norm_num]
    exact Real.sqrt_one
  have hq2 : Real.sqrt ((((2 : ℝ) - 1) / (1 * 2)) ^ 2 + 0) = 1 / 2 := by
    rw [show ((((2 : ℝ) - 1) / (1 * 2)) ^ 2 + 0) = (1 / 2 : ℝ) ^ 2 by norm_num]
    exact Real.sqrt_sq (by norm_num)
  norm_num [hq1, hq2]

/-! ### Slice-assignment helpers -/

theorem take_append_getD (dvec l2 : List ℝ) (i k : ℕ) (hk : k < i)
    (hi : i ≤ dvec.length) :
    (dvec.take i ++ l2).getD k 0 = dvec.getD k 0 := by
  rw [List.getD_append _ _ _ _ (by rw [List.length_take]; omega)]
  rw [List.getD_eq_getElem _ _ (by rw [List.length_take]; omega),
    List.getD_eq_getElem _ _ (by omega)]
  simp [List.getElem_take]

theorem take_append_length (dvec l2 : List ℝ) (i : ℕ) (hi : i ≤ dvec.length) :
    (dvec.take i ++ l2).length = i + l2.length := by
  rw [List.length_append, List.length_take]
  omega

theorem drop_take_append (dvec l2 : List ℝ) (i : ℕ) (hi : i ≤ dvec.length) :
    (dvec.take i ++ l2).drop i = l2 := by
  have h : (dvec.take i).length = i := by rw [List.length_take]; omega
  calc (dvec.take i ++ l2).drop i
      = (dvec.take i ++ l2).drop (dvec.take i).length := by rw [h]
    _ = l2 := List.drop_left _ _

/-- The cancellation at the heart of the constant-density core: a uniform
sphere of density M/(4pi/3 R^3) and radius R has mass exactly M. -/
theorem const_core_mass_cancel (M R : ℝ) (hR : 0 < R) :
    4 * Real.pi / 3 * (M / (4 * Real.pi / 3 * R ^ 3)) * R ^ 3 = M := by
  have hpi : (0 : ℝ) < Real.pi := Real.pi_pos
  have hne : 4 * Real.pi / 3 * R ^ 3 ≠ 0 := by positivity
  field_simp
  ring

/-- Overwriting the profile from index i inward with a constant density
makes the enclosed mass at index i exactly that of a uniform sphere of
radius svec[i]: the shell sum telescopes. -/
theorem mass_variable_const_core (svec dvec : List ℝ) (i : ℕ) (ρ : ℝ)
    (hlen : svec.length = dvec.length) (hi : i < svec.length) :
    (mass_variable svec (dvec.take i ++ List.replicate (dvec.length - i) ρ)).getD i 0
      = 4 * Real.pi / 3 * ρ * (svec.getD i 0) ^ 3 := by
  have hd' : (dvec.take i ++ List.replicate (dvec.length - i) ρ).length = dvec.length := by
    rw [take_append_length _ _ _ (by omega), List.length_replicate]
    omega
  have hlen' : svec.length
      = (dvec.take i ++ List.replicate (dvec.length - i) ρ).length := by
    rw [hd', hlen]
  have hmvlen := mass_variable_length svec _ hlen'
  rw [← headI_drop _ i (by rw [hmvlen]; omega)]
  rw [mass_variable_drop i svec _ hlen']
  rw [drop_take_append _ _ _ (by omega)]
  have hrep : dvec.length - i = (svec.drop i).length := by
    rw [List.length_drop]
    omega
  rw [hrep]
  rw [mass_variable_replicate (svec.drop i) ρ (by
    intro hnil
    have hlen0 := congrArg List.length hnil
    rw [List.length_drop] at hlen0
    simp at hlen0
    omega)]
  rw [headI_drop svec i hi]

/-! ### Claim C3 -/

/-- C3: when the located core index is strictly before the last sample,
type_1_jupiter keeps the radii and every density outside the core index
equal to the reference model's, makes the enclosed mass at the core
radius exactly the requested Mc in kg, and shifts the total mass by
exactly Mc minus the reference enclosed mass at that index. -/
theorem type_1_core_spec (N : ℕ) (Mc : ℝ) (h : core_index N Mc < N - 1) :
    (type_1_jupiter N Mc).1 = (reference_jupiter N).1 ∧
    (∀ k < core_index N Mc,
      (type_1_jupiter N Mc).2.getD k 0 = (reference_jupiter N).2.getD k 0) ∧
    (mass_variable (type_1_jupiter N Mc).1 (type_1_jupiter N Mc).2).getD
        (core_index N Mc) 0 = Mc_kg Mc ∧
    mass (type_1_jupiter N Mc).1 (type_1_jupiter N Mc).2
        - mass (reference_jupiter N).1 (reference_jupiter N).2
      = Mc_kg Mc
        - (mass_variable (reference_jupiter N).1 (reference_jupiter N).2).getD
            (core_index N Mc) 0 := by
  have hN2 : 2 ≤ N := by omega
  have hiN : core_index N Mc < N := by omega
  have hlen1 : (reference_jupiter N).1.length = N := reference_jupiter_fst_length N
  have hlen2 : (reference_jupiter N).2.length = N := reference_jupiter_snd_length N
  have htype1 : type_1_jupiter N Mc =
      ((reference_jupiter N).1,
        (reference_jupiter N).2.take (core_index N Mc) ++
          List.replicate ((reference_jupiter N).2.length - core_index N Mc)
            (type_1_rhoc N Mc)) := by
    simp only [type_1_jupiter]
    rw [if_pos h]
  have hd' : ((reference_jupiter N).2.take (core_index N Mc) ++
      List.replicate ((reference_jupiter N).2.length - core_index N Mc)
        (type_1_rhoc N Mc)).length = N := by
    rw [take_append_length _ _ _ (by omega), List.length_replicate]
    omega
  have hagree : ∀ k < core_index N Mc,
      ((reference_jupiter N).2.take (core_index N Mc) ++
        List.replicate ((reference_jupiter N).2.length - core_index N Mc)
          (type_1_rhoc N Mc)).getD k 0 = (reference_jupiter N).2.getD k 0 :=
    fun k hk => take_append_getD _ _ _ k hk (by omega)
  have hcore := mass_variable_const_core (reference_jupiter N).1
    (reference_jupiter N).2 (core_index N Mc) (type_1_rhoc N Mc)
    (by omega) (by omega)
  have hrc : 4 * Real.pi / 3 * type_1_rhoc N Mc
      * ((reference_jupiter N).1.getD (core_index N Mc) 0) ^ 3 = Mc_kg Mc := by
    have hpos := reference_jupiter_svec_pos N (core_index N Mc) hiN
    have hrhoc : type_1_rhoc N Mc = Mc_kg Mc /
        (4 * Real.pi / 3 * ((reference_jupiter N).1.getD (core_index N Mc) 0) ^ 3) := rfl
    rw [hrhoc]
    exact const_core_mass_cancel _ _ hpos
  refine ⟨?_, ?_, ?_, ?_⟩
  · rw [htype1]
  · intro k hk
    rw [htype1]
    exact hagree k hk
  · rw [htype1]
    rw [hcore, hrc]
  · have hsub := mass_variable_sub_headI (core_index N Mc) (reference_jupiter N).1
      ((reference_jupiter N).2.take (core_index N Mc) ++
        List.replicate ((reference_jupiter N).2.length - core_index N Mc)
          (type_1_rhoc N Mc))
      (reference_jupiter N).2 (by omega) (by omega) (by omega) hagree
    have hm1 := mass_variable_headI_eq_mass (reference_jupiter N).1
      ((reference_jupiter N).2.take (core_index N Mc) ++
        List.replicate ((reference_jupiter N).2.length - core_index N Mc)
          (type_1_rhoc N Mc)) (by omega) (by omega)
    have hm2 := mass_variable_headI_eq_mass (reference_jupiter N).1
      (reference_jupiter N).2 (by omega) (by omega)
    rw [htype1]
    have hc2 := hcore
    linarith [hsub, hm1, hm2, hc2, hrc]

/-! ### Claim C9 -/

/-- C9: when the located core index is the last sample, both core
builders are a no-op: the returned profile is the reference profile,
unchanged. -/
theorem core_substitution_noop (N : ℕ) (Mc : ℝ) (h : core_index N Mc = N - 1) :
    type_1_jupiter N Mc = reference_jupiter N ∧
    type_2_jupiter N Mc = reference_jupiter N := by
  constructor
  · simp only [type_1_jupiter, h, lt_self_iff_false, if_false]
  · simp only [type_2_jupiter, h, lt_self_iff_false, if_false]

/-- On a single-sample profile the located core index is always the last
(and only) sample, index 0. -/
theorem core_index_one (Mc : ℝ) : core_index 1 Mc = 0 := by
  simp [core_index, reference_jupiter, pqp_profile, linspace,
    show List.range 1 = [0] from rfl, mass_variable_single, argmin, argminVal]

theorem core_substitution_noop_witness :
    core_index 1 5 = 1 - 1 ∧
    (type_1_jupiter 1 5 = reference_jupiter 1 ∧
      type_2_jupiter 1 5 = reference_jupiter 1) :=
  ⟨by rw [core_index_one], core_substitution_noop 1 5 (by rw [core_index_one])⟩

/-! ### The reference profile at N = 2, evaluated exactly -/

theorem reference_jupiter_two :
    reference_jupiter 2
      = ([Jupiter.s0, 1 / 2 * Jupiter.s0], [0, 2695.951858]) := by
  have hrange : List.range 2 = [0, 1] := rfl
  simp only [reference_jupiter, pqp_profile, linspace, x_ref, hrange,
    List.map_cons, List.map_nil, List.getD_cons_zero, List.getD_cons_succ]
  norm_num

/-- On the two-sample reference profile the surface density is 0, so both
cumulative-mass entries coincide and the stable argmin picks index 0 for
every target mass. -/
theorem core_index_two (Mc : ℝ) : core_index 2 Mc = 0 := by
  simp only [core_index, reference_jupiter_two]
  rw [mass_variable_cons, mass_variable_single]
  simp [argmin, argminVal]

theorem type_1_core_spec_witness :
    core_index 2 10 < 2 - 1 ∧
    ((type_1_jupiter 2 10).1 = (reference_jupiter 2).1 ∧
      (∀ k < core_index 2 10,
        (type_1_jupiter 2 10).2.getD k 0 = (reference_jupiter 2).2.getD k 0) ∧
      (mass_variable (type_1_jupiter 2 10).1 (type_1_jupiter 2 10).2).getD
          (core_index 2 10) 0 = Mc_kg 10 ∧
      mass (type_1_jupiter 2 10).1 (type_1_jupiter 2 10).2
          - mass (reference_jupiter 2).1 (reference_jupiter 2).2
        = Mc_kg 10
          - (mass_variable (reference_jupiter 2).1 (reference_jupiter 2).2).getD
              (core_index 2 10) 0) :=
  ⟨by rw [core_index_two]; norm_num, type_1_core_spec 2 10 (by rw [core_index_two]; norm_num)⟩

/-! ### Claim C4 -/

theorem drop_getD (l : List ℝ) (i j : ℕ) (h : i + j < l.length) :
    (l.drop i).getD j 0 = l.getD (i + j) 0 := by
  rw [List.getD_eq_getElem _ _ (by rw [List.length_drop]; omega),
    List.getD_eq_getElem _ _ h]
  simp [List.getElem_drop]

/-- The normalized radii zvec = svec/svec[0] recomputed by type_2_jupiter
recover the sampling grid 1 - k/N. -/
theorem type_2_zvec_getD (N k : ℕ) (hk : k < N) :
    ((reference_jupiter N).1.map
        (fun s => s / (reference_jupiter N).1.headI)).getD k 0
      = 1 - (k : ℝ) / (N : ℝ) := by
  have hlen : k < ((reference_jupiter N).1.map
      (fun s => s / (reference_jupiter N).1.headI)).length := by
    rw [List.length_map, reference_jupiter_fst_length]
    exact hk
  rw [List.getD_eq_getElem _ _ hlen, List.getElem_map]
  rw [← List.getD_eq_getElem _ 0 (by rw [reference_jupiter_fst_length]; exact hk)]
  rw [reference_jupiter_svec_getD N k hk, reference_jupiter_svec_headI N (by omega)]
  have hs0 : Jupiter.s0 ≠ 0 := by norm_num [Jupiter.s0]
  field_simp

theorem type_2_Zc_eq (N : ℕ) (Mc : ℝ) (h : core_index N Mc < N) :
    type_2_Zc N Mc = 1 - (core_index N Mc : ℝ) / (N : ℝ) :=
  type_2_zvec_getD N (core_index N Mc) h

theorem type_2_Zc_pos (N : ℕ) (Mc : ℝ) (h : core_index N Mc < N) :
    0 < type_2_Zc N Mc := by
  rw [type_2_Zc_eq N Mc h]
  have hN : 0 < (N : ℝ) := by
    have : 0 < N := by omega
    exact_mod_cast this
  have : (core_index N Mc : ℝ) / (N : ℝ) < 1 := by
    rw [div_lt_one hN]
    exact_mod_cast h
  linarith

/-- The closed-form slope solve of type_2_jupiter makes the continuous
linear-ramp enclosed-mass integral come out exactly at the target. -/
theorem linear_core_integral (M s ρc Z : ℝ) (hZ : 0 < Z) (hs : 0 < s) :
    4 * Real.pi * s ^ 3 *
      (ρc * Z ^ 3 / 3 + (((M / s ^ 3) / (Real.pi * Z ^ 3) - ρc / 3 - ρc) / Z) * Z ^ 4 / 4)
      = M := by
  have hpi := Real.pi_pos
  have hZ0 : Z ≠ 0 := ne_of_gt hZ
  have hs0 : s ≠ 0 := ne_of_gt hs
  have hpi0 : Real.pi ≠ 0 := ne_of_gt hpi
  field_simp
  ring

/-- C4 amended: when the core index is strictly before the last sample,
the type_2 linear ramp matches the reference center density only in its
extrapolation to z = 0; the innermost sample, at normalized radius 1/N,
receives rhoc + slope/N instead.  The slope is solved so that the
continuous enclosed-mass integral of the ramp over the core,
4*pi*s0^3*(rhoc*Zc^3/3 + slope*Zc^4/4), equals the requested Mc in kg
exactly; the discrete shell sum of mass_variable does not in general. -/
theorem type_2_core_spec (N : ℕ) (Mc : ℝ) (h : core_index N Mc < N - 1) :
    (type_2_jupiter N Mc).2.getD (N - 1) 0
      = type_2_rhoc N + type_2_slope N Mc * (1 / (N : ℝ)) ∧
    4 * Real.pi * Jupiter.s0 ^ 3 *
      (type_2_rhoc N * type_2_Zc N Mc ^ 3 / 3
        + type_2_slope N Mc * type_2_Zc N Mc ^ 4 / 4) = Mc_kg Mc := by
  have hN2 : 2 ≤ N := by omega
  have hiN : core_index N Mc < N := by omega
  have hlen1 : (reference_jupiter N).1.length = N := reference_jupiter_fst_length N
  have hlen2 : (reference_jupiter N).2.length = N := reference_jupiter_snd_length N
  have hzlen : ((reference_jupiter N).1.map
      (fun s => s / (reference_jupiter N).1.headI)).length = N := by
    rw [List.length_map, hlen1]
  constructor
  · have htype2 : type_2_jupiter N Mc =
        ((reference_jupiter N).1,
          (reference_jupiter N).2.take (core_index N Mc) ++
            (((reference_jupiter N).1.map
                (fun s => s / (reference_jupiter N).1.headI)).drop (core_index N Mc)).map
              (fun z => type_2_rhoc N + type_2_slope N Mc * z)) := by
      simp only [type_2_jupiter]
      rw [if_pos h]
    rw [htype2]
    have htk : ((reference_jupiter N).2.take (core_index N Mc)).length
        = core_index N Mc := by
      rw [List.length_take]
      omega
    rw [List.getD_append_right _ _ _ _ (by rw [htk]; omega)]
    rw [htk]
    have hidx : core_index N Mc + (N - 1 - core_index N Mc) = N - 1 := by omega
    have hmaplen : N - 1 - core_index N Mc <
        ((((reference_jupiter N).1.map
          (fun s => s / (reference_jupiter N).1.headI)).drop (core_index N Mc)).map
            (fun z => type_2_rhoc N + type_2_slope N Mc * z)).length := by
      rw [List.length_map, List.length_drop, hzlen]
      omega
    rw [List.getD_eq_getElem _ _ hmaplen, List.getElem_map]
    rw [← List.getD_eq_getElem _ 0 (by rw [List.length_drop, hzlen]; omega)]
    rw [drop_getD _ _ _ (by rw [hzlen]; omega), hidx]
    rw [type_2_zvec_getD N (N - 1) (by omega)]
    have hcast : ((N - 1 : ℕ) : ℝ) = (N : ℝ) - 1 := by
      rw [Nat.cast_sub (by omega)]
      norm_num
    have hN0 : (N : ℝ) ≠ 0 := by
      have : (0 : ℝ) < (N : ℝ) := by exact_mod_cast (show 0 < N by omega)
      linarith
    rw [hcast]
    have : 1 - ((N : ℝ) - 1) / (N : ℝ) = 1 / (N : ℝ) := by
      field_simp
    rw [this]
  · have hZpos := type_2_Zc_pos N Mc hiN
    have hs0 : (0 : ℝ) < Jupiter.s0 := by norm_num [Jupiter.s0]
    have hslope : type_2_slope N Mc
        = ((Mc_kg Mc / Jupiter.s0 ^ 3) / (Real.pi * type_2_Zc N Mc ^ 3)
            - type_2_rhoc N / 3 - type_2_rhoc N) / type_2_Zc N Mc := by
      unfold type_2_slope type_2_rhoe
      rw [reference_jupiter_svec_headI N (by omega)]
    rw [hslope]
    exact linear_core_integral (Mc_kg Mc) Jupiter.s0 (type_2_rhoc N)
      (type_2_Zc N Mc) hZpos hs0

/-- The type_2 profile at N = 2 with target core mass 0, evaluated: the
ramp extrapolates to the old center density at z = 0, so both samples
move, and the innermost sample density becomes a third of the original. -/
theorem type_2_jupiter_two_eval :
    type_2_jupiter 2 0
      = ([Jupiter.s0, 1 / 2 * Jupiter.s0],
         [-(2695.951858) / 3, 2695.951858 / 3]) := by
  have hZc : type_2_Zc 2 0 = 1 := by
    rw [type_2_Zc_eq 2 0 (by rw [core_index_two]; norm_num), core_index_two]
    norm_num
  have hrhoc : type_2_rhoc 2 = 2695.951858 := by
    simp [type_2_rhoc, reference_jupiter_two]
  have hrhoe : type_2_rhoe 2 0 = -(2695.951858) / 3 := by
    simp only [type_2_rhoe, hZc, hrhoc]
    rw [reference_jupiter_svec_headI 2 (by norm_num)]
    norm_num [Mc_kg]
  have hslope : type_2_slope 2 0 = -4 * 2695.951858 / 3 := by
    simp only [type_2_slope, hrhoe, hrhoc, hZc]
    norm_num
  have hs0 : Jupiter.s0 ≠ 0 := by norm_num [Jupiter.s0]
  simp only [type_2_jupiter, core_index_two, reference_jupiter_two]
  rw [if_pos (by norm_num)]
  simp only [List.take_zero, List.drop_zero, List.nil_append, List.map_cons,
    List.map_nil, List.headI_cons, hslope, hrhoc]
  rw [div_self hs0]
  rw [show 1 / 2 * Jupiter.s0 / Jupiter.s0 = (1 / 2 : ℝ) by field_simp; ring]
  norm_num [Prod.ext_iff]

/-- C4 counterexample: at N = 2, Mc = 0 the core index is 0 (strictly
before the last sample), yet the innermost sample density of
type_2_jupiter differs from the reference center density, and the
discrete enclosed mass at the core index is not the requested 0. -/
theorem type_2_core_cex :
    core_index 2 0 < 2 - 1 ∧
    (type_2_jupiter 2 0).2.getD (2 - 1) 0
      ≠ (reference_jupiter 2).2.getD (2 - 1) 0 ∧
    (mass_variable (type_2_jupiter 2 0).1 (type_2_jupiter 2 0).2).getD
        (core_index 2 0) 0 ≠ Mc_kg 0 := by
  refine ⟨by rw [core_index_two]; norm_num, ?_, ?_⟩
  · rw [type_2_jupiter_two_eval, reference_jupiter_two]
    norm_num
  · rw [type_2_jupiter_two_eval, core_index_two]
    rw [mass_variable_cons, mass_variable_single]
    simp only [List.headI_cons, List.getD_cons_zero]
    have heq : 4 * Real.pi / 3 * (2695.951858 / 3) * (1 / 2 * Jupiter.s0) ^ 3
        + 4 * Real.pi / 3 * (-(2695.951858) / 3)
          * (Jupiter.s0 ^ 3 - (1 / 2 * Jupiter.s0) ^ 3)
        = -(Real.pi * 2695.951858 * Jupiter.s0 ^ 3) / 3 := by
      ring
    rw [heq, show Mc_kg 0 = 0 by norm_num [Mc_kg]]
    have hs0 : (0 : ℝ) < Jupiter.s0 := by norm_num [Jupiter.s0]
    have hpos : 0 < Real.pi * 2695.951858 * Jupiter.s0 ^ 3 := by
      have hpi := Real.pi_pos
      have h3 : (0 : ℝ) < Jupiter.s0 ^ 3 := by positivity
      nlinarith
    intro hcontra
    rw [div_eq_zero_iff] at hcontra
    rcases hcontra with hcontra | hcontra
    · rw [neg_eq_zero] at hcontra
      linarith
    · norm_num at hcontra

theorem type_2_core_spec_witness :
    core_index 2 7 < 2 - 1 ∧
    ((type_2_jupiter 2 7).2.getD (2 - 1) 0
        = type_2_rhoc 2 + type_2_slope 2 7 * (1 / ((2 : ℕ) : ℝ)) ∧
      4 * Real.pi * Jupiter.s0 ^ 3 *
        (type_2_rhoc 2 * type_2_Zc 2 7 ^ 3 / 3
          + type_2_slope 2 7 * type_2_Zc 2 7 ^ 4 / 4) = Mc_kg 7) :=
  ⟨by rw [core_index_two]; norm_num,
    type_2_core_spec 2 7 (by rw [core_index_two]; norm_num)⟩
